import Mathlib

/-!
# Verification of the exotic-option Monte Carlo pricing notebook

Shallow embedding over exact reals of the simulation-and-payoff engine in
`Exotic Options.ipynb`: the geometric-Brownian-motion path simulator, the
payoff evaluators (Asian, lookback, barrier, binary, chooser), the pricing
aggregator (discounted mean, variance, standard error), and the range
statistics (scipy `percentileofscore`).  Matrices are lists of rows, one row
per simulation, one column per time step; NumPy reductions become list
operations.
-/

open scoped BigOperators
open Classical

namespace Exotic

/-- Embeds `np.mean` of a vector: sum divided by length (0 on the empty vector). -/
noncomputable def npMean (xs : List ℝ) : ℝ := xs.sum / xs.length

/-- Embeds `np.amax` of a vector (junk value 0 on the empty vector, which NumPy rejects). -/
def npAmax : List ℝ → ℝ
  | [] => 0
  | x :: xs => xs.foldl max x

/-- Embeds `np.cumprod` of a vector: running products. -/
def npCumprod : List ℝ → List ℝ
  | [] => []
  | x :: xs => x :: (npCumprod xs).map (x * ·)

/-- Entry `(i, j)` of a matrix stored as a list of rows (0 out of bounds). -/
def entry (mat : List (List ℝ)) (i j : ℕ) : ℝ := (mat.getD i []).getD j 0

/-- The per-step growth factor
`np.exp((risk_free_rate - sigma * sigma / 2) * dt + sigma * random * np.sqrt(dt))`
applied to one standard-normal draw `z`. -/
noncomputable def stepGrowth (r σ dt z : ℝ) : ℝ :=
  Real.exp ((r - σ * σ / 2) * dt + σ * z * Real.sqrt dt)

/-- Embeds `ratio_matrix`: the elementwise per-step growth factors of the draw matrix
`random`. -/
noncomputable def ratio_matrix (r σ dt : ℝ) (random : List (List ℝ)) : List (List ℝ) :=
  random.map (fun row => row.map (stepGrowth r σ dt))

/-- Embeds `prices = spot_price * np.cumprod(ratio_matrix, axis=1)`: each row is the
running product of its growth factors, scaled by the spot price. -/
noncomputable def prices (spot r σ dt : ℝ) (random : List (List ℝ)) : List (List ℝ) :=
  (ratio_matrix r σ dt random).map (fun row => (npCumprod row).map (spot * ·))

/-- The PricingAggregator's price, as in the Asian cell:
`np.mean(payoffs) * np.exp(-risk_free_rate * Time)`. -/
noncomputable def option_price (r T : ℝ) (payoffs : List ℝ) : ℝ :=
  npMean payoffs * Real.exp (-(r * T))

/-- The PricingAggregator's variance, as in the Asian cell:
`np.sum(np.power(payoffs - Asian_Option_call_price, 2)) / (simulations - 1)` —
the center of the squared deviations is the *discounted* price. -/
noncomputable def variance (r T : ℝ) (payoffs : List ℝ) : ℝ :=
  ((payoffs.map (fun p => (p - option_price r T payoffs) ^ 2)).sum) /
    ((payoffs.length : ℝ) - 1)

/-- Embeds `standard_error = np.sqrt(variance / simulations)`. -/
noncomputable def standard_error (r T : ℝ) (payoffs : List ℝ) : ℝ :=
  Real.sqrt (variance r T payoffs / payoffs.length)

/-- The Asian per-row payoff `np.maximum(0, np.mean(prices, axis=1) - strike_price)`
restricted to one row. -/
noncomputable def asian_payoff (K : ℝ) (row : List ℝ) : ℝ := max 0 (npMean row - K)

/-- The lookback-call per-row payoff
`np.maximum(0, np.amax(prices - strike_price, axis=1))` restricted to one row. -/
noncomputable def lookback_call_payoff (K : ℝ) (row : List ℝ) : ℝ :=
  max 0 (npAmax (row.map (fun p => p - K)))

/-- The barrier cell's intermediate payoff matrix
`np.maximum(0, prices - Barrier_price)`. -/
noncomputable def barrier_payoff_matrix (B : ℝ) (mat : List (List ℝ)) : List (List ℝ) :=
  mat.map (fun row => row.map (fun p => max 0 (p - B)))

/-- Embeds `Barrier_option_price`: keep the rows of the payoff matrix whose product is
nonzero (`np.where(np.prod(payoffs, axis=1) != 0)`), sum their final entries
(`payoffs[i][-1]`), divide by the simulation count and discount. -/
noncomputable def Barrier_option_price (B r T : ℝ) (mat : List (List ℝ)) : ℝ :=
  ((((barrier_payoff_matrix B mat).filter
      (fun prow => decide (prow.prod ≠ 0))).map (fun prow => prow.getLastD 0)).sum)
    / mat.length * Real.exp (-(r * T))

/-- Embeds `chooser_option_price`: sum the final-column call payoffs
(`choosercallpayoffs[i][-1]`) and the final-column put payoffs
(`chooserputpayoffs[i][-1]`) over all simulations, take the larger sum and
divide by the simulation count. -/
noncomputable def chooser_option_price (K : ℝ) (mat : List (List ℝ)) : ℝ :=
  max (((mat.map (fun row => row.map (fun p => max 0 (p - K)))).map
          (fun prow => prow.getLastD 0)).sum)
      (((mat.map (fun row => row.map (fun p => max 0 (K - p)))).map
          (fun prow => prow.getLastD 0)).sum)
    / mat.length

/-- Embeds `binaryoption`: the Asian-style payoffs `np.maximum(0, np.mean(prices, axis=1)
- strike_price)`, then `np.count_nonzero(payoffs) / simulations`, discounted. -/
noncomputable def binaryoption (K r T : ℝ) (mat : List (List ℝ)) : ℝ :=
  (((mat.map (fun row => max 0 (npMean row - K))).countP
      (fun p => decide (p ≠ 0)) : ℕ) : ℝ) / mat.length * Real.exp (-(r * T))

/-- Modelled from the implementation of `scipy.stats.percentileofscore`
(default `kind='rank'`) as invoked in the source on the full 2-D `prices`
matrix: `left = np.count_nonzero(a < score)` and
`right = np.count_nonzero(a <= score)` count over all matrix entries, while
the divisor `n = len(a)` is the number of *rows* of the matrix; the result is
`(right + left + (1 if right > left else 0)) * 50.0 / n`. -/
noncomputable def percentileofscore (mat : List (List ℝ)) (score : ℝ) : ℝ :=
  ((mat.flatten.countP (fun p => decide (p < score)) : ℝ) +
     (mat.flatten.countP (fun p => decide (p ≤ score)) : ℝ) +
     (if mat.flatten.countP (fun p => decide (p < score)) <
          mat.flatten.countP (fun p => decide (p ≤ score)) then (1 : ℝ) else 0))
    * (50 / mat.length)

/- ## Helper lemmas -/

lemma npCumprod_length (xs : List ℝ) : (npCumprod xs).length = xs.length := by
  induction xs with
  | nil => rfl
  | cons x xs ih => simp [npCumprod, ih]

lemma npCumprod_getD (xs : List ℝ) (j : ℕ) (hj : j < xs.length) :
    (npCumprod xs).getD j 0 = (xs.take (j + 1)).prod := by
  induction xs generalizing j with
  | nil => simp at hj
  | cons x xs ih =>
    cases j with
    | zero => simp [npCumprod]
    | succ m =>
      have hm : m < xs.length := by simpa using hj
      have hm' : m < (npCumprod xs).length := by rw [npCumprod_length]; exact hm
      simp only [npCumprod, List.getD_cons_succ, List.take_succ_cons, List.prod_cons]
      rw [List.getD_eq_getElem _ _ (by simpa using hm'), List.getElem_map,
        ← List.getD_eq_getElem _ 0 hm', ih m hm]

lemma prod_take_map (f : ℝ → ℝ) (xs : List ℝ) (n : ℕ) :
    ((xs.map f).take n).prod = ∏ k in Finset.range (min n xs.length), f (xs.getD k 0) := by
  induction xs generalizing n with
  | nil => simp
  | cons x xs ih =>
    cases n with
    | zero => simp
    | succ m =>
      rw [List.map_cons, List.take_succ_cons, List.prod_cons, ih]
      have hmin : (m + 1) ⊓ (x :: xs).length = (m ⊓ xs.length) + 1 := by
        simp [Nat.succ_min_succ]
      rw [hmin, Finset.prod_range_succ']
      simp [mul_comm]

lemma getD_map {α β : Type} (f : α → β) (l : List α) (i : ℕ) (hi : i < l.length)
    (d : α) (d' : β) : (l.map f).getD i d' = f (l.getD i d) := by
  rw [List.getD_eq_getElem _ _ (by simpa using hi), List.getElem_map,
    List.getD_eq_getElem _ _ hi]

/-- Closed form of one matrix entry of `prices`: row `i`, column `j` is the spot
price times the product of the first `j + 1` step growth factors of that row. -/
lemma prices_entry_eq (spot r σ dt : ℝ) (random : List (List ℝ)) (i j : ℕ)
    (hi : i < random.length) (hj : j < (random.getD i []).length) :
    entry (prices spot r σ dt random) i j =
      spot * ∏ k in Finset.range (j + 1), stepGrowth r σ dt (entry random i k) := by
  unfold entry prices ratio_matrix
  rw [List.map_map]
  rw [getD_map _ random i hi [] []]
  simp only [Function.comp_apply]
  set row := random.getD i [] with hrow
  have hlen : j < (npCumprod (row.map (stepGrowth r σ dt))).length := by
    rw [npCumprod_length, List.length_map]; exact hj
  rw [getD_map _ _ j hlen 0 0, npCumprod_getD _ j (by simpa using hj),
    prod_take_map]
  have hmin : (j + 1) ⊓ row.length = j + 1 := Nat.min_eq_left hj
  rw [hmin]

lemma sum_map_eq_sum_range (f : ℝ → ℝ) (xs : List ℝ) :
    (xs.map f).sum = ∑ k in Finset.range xs.length, f (xs.getD k 0) := by
  induction xs with
  | nil => simp
  | cons x t ih =>
    rw [List.map_cons, List.sum_cons, ih, List.length_cons, Finset.sum_range_succ']
    simp [add_comm]

lemma sum_eq_sum_range (xs : List ℝ) :
    xs.sum = ∑ k in Finset.range xs.length, xs.getD k 0 := by
  have h := sum_map_eq_sum_range id xs
  simpa using h

lemma le_foldl_max (l : List ℝ) (a : ℝ) : a ≤ l.foldl max a := by
  induction l generalizing a with
  | nil => exact le_rfl
  | cons x t ih => exact le_trans (le_max_left a x) (ih (max a x))

lemma mem_le_foldl_max (l : List ℝ) (a b : ℝ) (hb : b ∈ l) : b ≤ l.foldl max a := by
  induction l generalizing a with
  | nil => simp at hb
  | cons x t ih =>
    rcases List.mem_cons.mp hb with h | h
    · subst h
      exact le_trans (le_max_right a b) (le_foldl_max t (max a b))
    · exact ih (max a x) h

lemma foldl_max_map_sub (l : List ℝ) (a K : ℝ) :
    (l.map (fun p => p - K)).foldl max (a - K) = l.foldl max a - K := by
  induction l generalizing a with
  | nil => rfl
  | cons x t ih =>
    simp only [List.map_cons, List.foldl_cons]
    rw [max_sub_sub_right a x K]
    exact ih (max a x)

lemma mem_le_npAmax (row : List ℝ) (p : ℝ) (hp : p ∈ row) : p ≤ npAmax row := by
  cases row with
  | nil => simp at hp
  | cons x t =>
    rcases List.mem_cons.mp hp with h | h
    · subst h; exact le_foldl_max t p
    · exact mem_le_foldl_max t x p h

lemma npAmax_map_sub (row : List ℝ) (h : row ≠ []) (K : ℝ) :
    npAmax (row.map (fun p => p - K)) = npAmax row - K := by
  cases row with
  | nil => exact absurd rfl h
  | cons x t => simpa [npAmax] using foldl_max_map_sub t x K

lemma npMean_le_npAmax (row : List ℝ) (h : row ≠ []) : npMean row ≤ npAmax row := by
  have hlen : 0 < (row.length : ℝ) := by
    have : 0 < row.length := List.length_pos.mpr h
    exact_mod_cast this
  have hsum : row.sum ≤ row.length • npAmax row :=
    List.sum_le_card_nsmul row (npAmax row) (fun p hp => mem_le_npAmax row p hp)
  rw [nsmul_eq_mul] at hsum
  rw [npMean, div_le_iff₀ hlen, mul_comm]
  exact hsum

lemma getLast?_of_ne_nil (l : List ℝ) (h : l ≠ []) : ∃ y, l.getLast? = some y := by
  cases l with
  | nil => exact absurd rfl h
  | cons x t => exact ⟨_, List.getLast?_cons⟩

lemma getLastD_map_of_ne_nil (f : ℝ → ℝ) (l : List ℝ) (h : l ≠ []) :
    (l.map f).getLastD 0 = f (l.getLastD 0) := by
  obtain ⟨y, hy⟩ := getLast?_of_ne_nil l h
  rw [List.getLastD_eq_getLast?, List.getLastD_eq_getLast?, List.getLast?_map, hy]
  rfl

lemma countP_ne_zero_cast_eq_sum (l : List ℝ) :
    ((l.countP (fun p => decide (p ≠ 0)) : ℕ) : ℝ) =
      (l.map (fun x => if x ≠ 0 then (1 : ℝ) else 0)).sum := by
  induction l with
  | nil => simp
  | cons x t ih =>
    rw [List.countP_cons, List.map_cons, List.sum_cons]
    push_cast
    rw [ih]
    by_cases hx : x = 0
    · simp [hx]
    · simp [hx, add_comm]

lemma sum_map_filter_eq_sum_if (p : List ℝ → Bool) (f : List ℝ → ℝ)
    (l : List (List ℝ)) :
    ((l.filter p).map f).sum = (l.map (fun x => if p x = true then f x else 0)).sum := by
  induction l with
  | nil => rfl
  | cons x t ih =>
    by_cases hx : p x = true
    · simp [List.filter_cons, hx, ih]
    · simp [List.filter_cons, hx, ih]

lemma barrier_row_prod_eq_zero_iff (B : ℝ) (row : List ℝ) :
    (row.map (fun p => max 0 (p - B))).prod = 0 ↔ ∃ p ∈ row, p ≤ B := by
  rw [List.prod_eq_zero_iff]
  constructor
  · intro h
    obtain ⟨p, hp, hval⟩ := List.mem_map.mp h
    exact ⟨p, hp, by rwa [max_eq_left_iff, sub_nonpos] at hval⟩
  · rintro ⟨p, hp, hle⟩
    refine List.mem_map.mpr ⟨p, hp, ?_⟩
    rw [max_eq_left_iff, sub_nonpos]
    exact hle

/- ## Claim theorems -/

/-- C1: for every valid `SimulationParameters` (spot > 0, maturity T > 0,
volatility σ ≥ 0, step count M ≥ 1, dt = T/M) and every draw matrix `Z`, entry
`(i, j)` of the simulated path matrix equals the spot price times the product
over `k = 0..j` of `exp((r − σ²/2)·dt + σ·√dt·Z[i,k])`; in particular column
`j` is the price after `j + 1` steps and no column holds the bare spot price. -/
theorem prices_entry_formula (spot T r σ : ℝ) (M : ℕ) (Z : List (List ℝ))
    (hspot : 0 < spot) (hT : 0 < T) (hσ : 0 ≤ σ) (hM : 1 ≤ M)
    (i j : ℕ) (hi : i < Z.length) (hj : j < (Z.getD i []).length) :
    entry (prices spot r σ (T / M) Z) i j =
      spot * ∏ k in Finset.range (j + 1),
        Real.exp ((r - σ ^ 2 / 2) * (T / M) + σ * Real.sqrt (T / M) * entry Z i k) := by
  rw [prices_entry_eq spot r σ (T / M) Z i j hi hj]
  congr 1
  refine Finset.prod_congr rfl (fun k _ => ?_)
  unfold stepGrowth
  congr 1
  ring

/-- Witness for C1 at spot 100, T 1, r 0.05, σ 0.2, M 1, Z = [[0]]. -/
theorem prices_entry_formula_witness :
    entry (prices 100 0.05 0.2 ((1 : ℝ) / ((1 : ℕ) : ℝ)) [[0]]) 0 0 =
      100 * ∏ k in Finset.range (0 + 1),
        Real.exp ((0.05 - (0.2 : ℝ) ^ 2 / 2) * ((1 : ℝ) / ((1 : ℕ) : ℝ)) +
          0.2 * Real.sqrt ((1 : ℝ) / ((1 : ℕ) : ℝ)) * entry [[0]] 0 k) :=
  prices_entry_formula 100 1 0.05 0.2 1 [[0]] (by norm_num) (by norm_num) (by norm_num)
    (le_refl 1) 0 0 (by simp) (by simp)

/-- C5: for spot > 0 and σ ≥ 0, every in-range entry of the produced path
matrix is strictly positive (and, being a real number of the exact model,
finite); the evaluators are pure functions so the matrix is never mutated. -/
theorem prices_entry_pos (spot r σ dt : ℝ) (Z : List (List ℝ))
    (hspot : 0 < spot) (hσ : 0 ≤ σ) (i j : ℕ)
    (hi : i < Z.length) (hj : j < (Z.getD i []).length) :
    0 < entry (prices spot r σ dt Z) i j := by
  rw [prices_entry_eq spot r σ dt Z i j hi hj]
  exact mul_pos hspot (Finset.prod_pos (fun k _ => Real.exp_pos _))

/-- Witness for C5 at spot 100, σ 0.2, dt 1/100, Z = [[0]]. -/
theorem prices_entry_pos_witness :
    0 < entry (prices 100 0.05 0.2 (1 / 100) [[0]]) 0 0 :=
  prices_entry_pos 100 0.05 0.2 (1 / 100) [[0]] (by norm_num) (by norm_num)
    0 0 (by simp) (by simp)

/-- C3: for a payoff vector of length N ≥ 2, the aggregator returns
price = mean · exp(−r·T), variance = Σ(payoff_i − price)²/(N − 1) with the
*discounted* price as the center of the squared deviations, and
standardError = sqrt(variance / N). -/
theorem pricing_aggregator_formulas (r T : ℝ) (payoffs : List ℝ)
    (hN : 2 ≤ payoffs.length) :
    option_price r T payoffs =
        (∑ i in Finset.range payoffs.length, payoffs.getD i 0) / payoffs.length *
          Real.exp (-(r * T)) ∧
      variance r T payoffs =
        (∑ i in Finset.range payoffs.length,
            (payoffs.getD i 0 - option_price r T payoffs) ^ 2) /
          ((payoffs.length : ℝ) - 1) ∧
      standard_error r T payoffs =
        Real.sqrt (variance r T payoffs / payoffs.length) := by
  refine ⟨?_, ?_, rfl⟩
  · rw [option_price, npMean, sum_eq_sum_range]
  · rw [variance, sum_map_eq_sum_range]

/-- Witness for C3 on the payoff vector [1, 2] with r = 0, T = 0. -/
theorem pricing_aggregator_formulas_witness :
    option_price 0 0 [1, 2] =
        (∑ i in Finset.range ([1, 2] : List ℝ).length, ([1, 2] : List ℝ).getD i 0) /
          ([1, 2] : List ℝ).length * Real.exp (-(0 * 0)) ∧
      variance 0 0 [1, 2] =
        (∑ i in Finset.range ([1, 2] : List ℝ).length,
            (([1, 2] : List ℝ).getD i 0 - option_price 0 0 [1, 2]) ^ 2) /
          ((([1, 2] : List ℝ).length : ℝ) - 1) ∧
      standard_error 0 0 [1, 2] =
        Real.sqrt (variance 0 0 [1, 2] / ([1, 2] : List ℝ).length) :=
  pricing_aggregator_formulas 0 0 [1, 2] (by norm_num)

/-- C6 counterexample: on the two identical payoffs [1, 1] with r = 1, T = 1
the variance is NOT 0, because the squared deviations are centered at the
discounted price exp(−1)·1 rather than at the sample mean 1. -/
theorem variance_identical_not_zero : variance 1 1 [1, 1] ≠ 0 := by
  have key : 0 < variance 1 1 [1, 1] := by
    unfold variance option_price npMean
    simp only [List.map_cons, List.map_nil, List.sum_cons, List.sum_nil,
      List.length_cons, List.length_nil]
    norm_num
  exact key.ne'

/-- C6 amended: on N identical payoffs c the variance equals
N·(c − c·exp(−r·T))²/(N − 1); it is 0 exactly when c·(1 − exp(−r·T)) = 0
(for example when r·T = 0 or c = 0), not in general. -/
theorem variance_replicate (r T : ℝ) (N : ℕ) (c : ℝ) :
    variance r T (List.replicate N c) =
      N * (c - c * Real.exp (-(r * T))) ^ 2 / ((N : ℝ) - 1) := by
  cases N with
  | zero => simp [variance, option_price, npMean]
  | succ n =>
    have hlen : ((n + 1 : ℕ) : ℝ) ≠ 0 := by positivity
    have hmean : npMean (List.replicate (n + 1) c) = c := by
      rw [npMean, List.sum_replicate, List.length_replicate, nsmul_eq_mul]
      field_simp
    rw [variance, option_price, hmean, List.map_replicate, List.sum_replicate,
      List.length_replicate, nsmul_eq_mul]

/-- C10: for a nonempty row, the Asian call payoff max(0, mean(row) − K) and
the lookback call payoff max(0, max(row − K)) are non-negative and the
lookback payoff dominates the Asian payoff, since the row maximum is at least
the row mean. -/
theorem asian_lookback_payoffs (K : ℝ) (row : List ℝ) (h : row ≠ []) :
    0 ≤ asian_payoff K row ∧ 0 ≤ lookback_call_payoff K row ∧
      asian_payoff K row ≤ lookback_call_payoff K row := by
  refine ⟨le_max_left _ _, le_max_left _ _, ?_⟩
  unfold asian_payoff lookback_call_payoff
  rw [npAmax_map_sub row h K]
  exact max_le_max le_rfl (sub_le_sub_right (npMean_le_npAmax row h) K)

/-- Witness for C10 on the one-entry row [1] with strike 0. -/
theorem asian_lookback_payoffs_witness :
    0 ≤ asian_payoff 0 [1] ∧ 0 ≤ lookback_call_payoff 0 [1] ∧
      asian_payoff 0 [1] ≤ lookback_call_payoff 0 [1] :=
  asian_lookback_payoffs 0 [1] (by simp)

/-- C2: a row of the barrier evaluator's payoff matrix max(0, price − B) has
product 0 exactly when some price of the row is ≤ B (the row is knocked out),
and the barrier price is the sum over rows of 0 for knocked-out rows and of
the final column's max(0, price − B) for surviving rows, divided by the
simulation count and discounted by exp(−r·T). -/
theorem barrier_evaluator_spec (B r T : ℝ) (mat : List (List ℝ))
    (hne : ∀ row ∈ mat, row ≠ []) :
    (∀ row ∈ mat,
        ((row.map (fun p => max 0 (p - B))).prod = 0 ↔ ∃ p ∈ row, p ≤ B)) ∧
      Barrier_option_price B r T mat =
        (mat.map (fun row =>
            if ∃ p ∈ row, p ≤ B then 0 else max 0 (row.getLastD 0 - B))).sum
          / mat.length * Real.exp (-(r * T)) := by
  refine ⟨fun row _ => barrier_row_prod_eq_zero_iff B row, ?_⟩
  unfold Barrier_option_price barrier_payoff_matrix
  rw [sum_map_filter_eq_sum_if, List.map_map]
  congr 2
  refine congrArg List.sum (List.map_congr_left (fun row hrow => ?_))
  simp only [Function.comp_apply]
  by_cases hko : ∃ p ∈ row, p ≤ B
  · have hprod : (row.map (fun p => max 0 (p - B))).prod = 0 :=
      (barrier_row_prod_eq_zero_iff B row).mpr hko
    simp [hprod, hko]
  · have hprod : (row.map (fun p => max 0 (p - B))).prod ≠ 0 :=
      fun hc => hko ((barrier_row_prod_eq_zero_iff B row).mp hc)
    obtain ⟨y, hy⟩ := getLast?_of_ne_nil row (hne row hrow)
    simp [hprod, hko, List.getLastD_eq_getLast?, List.getLast?_map, hy]

/-- Witness for C2 on the matrix [[1], [3]] with barrier 2, r = 0, T = 0. -/
theorem barrier_evaluator_spec_witness :
    (∀ row ∈ ([[1], [3]] : List (List ℝ)),
        ((row.map (fun p => max 0 (p - 2))).prod = 0 ↔ ∃ p ∈ row, p ≤ 2)) ∧
      Barrier_option_price 2 0 0 [[1], [3]] =
        (([[1], [3]] : List (List ℝ)).map (fun row =>
            if ∃ p ∈ row, p ≤ 2 then 0 else max 0 (row.getLastD 0 - 2))).sum
          / ([[1], [3]] : List (List ℝ)).length * Real.exp (-(0 * 0)) :=
  barrier_evaluator_spec 2 0 0 [[1], [3]] (by simp)

/-- C4: the chooser price is max over the whole batch of the summed
final-column call payoffs and the summed final-column put payoffs, divided by
the simulation count; being a pure function of the path matrix it is
reproducible from the same matrix. -/
theorem chooser_price_formula (K : ℝ) (mat : List (List ℝ))
    (hne : ∀ row ∈ mat, row ≠ []) :
    chooser_option_price K mat =
      max ((mat.map (fun row => max 0 (row.getLastD 0 - K))).sum)
          ((mat.map (fun row => max 0 (K - row.getLastD 0))).sum) / mat.length := by
  have h1 : ((mat.map (fun row => row.map (fun p => max 0 (p - K)))).map
        (fun prow => prow.getLastD 0)) =
      mat.map (fun row => max 0 (row.getLastD 0 - K)) := by
    rw [List.map_map]
    refine List.map_congr_left fun row hrow => ?_
    simpa using getLastD_map_of_ne_nil (fun p => max 0 (p - K)) row (hne row hrow)
  have h2 : ((mat.map (fun row => row.map (fun p => max 0 (K - p)))).map
        (fun prow => prow.getLastD 0)) =
      mat.map (fun row => max 0 (K - row.getLastD 0)) := by
    rw [List.map_map]
    refine List.map_congr_left fun row hrow => ?_
    simpa using getLastD_map_of_ne_nil (fun p => max 0 (K - p)) row (hne row hrow)
  unfold chooser_option_price
  rw [h1, h2]

/-- Witness for C4 on the matrix [[1]] with strike 2. -/
theorem chooser_price_formula_witness :
    chooser_option_price 2 [[1]] =
      max ((([[1]] : List (List ℝ)).map (fun row => max 0 (row.getLastD 0 - 2))).sum)
          ((([[1]] : List (List ℝ)).map (fun row => max 0 (2 - row.getLastD 0))).sum)
        / ([[1]] : List (List ℝ)).length :=
  chooser_price_formula 2 [[1]] (by simp)

/-- C7 counterexample: the source performs no parameter validation — with the
invalid spot price −1 (and r = σ = 0, dt = 1, one draw 0) the simulator still
runs and produces the path matrix [[−1]], so a path matrix IS produced from
invalid parameters and nothing is rejected. -/
theorem invalid_spot_still_simulates : prices (-1) 0 0 1 [[0]] = [[-1]] := by
  simp [prices, ratio_matrix, stepGrowth, npCumprod]

/-- C7 amended: the code has no validation step; for every parameter set,
valid or not, the simulator is total and produces a path matrix with one row
per row of the draw matrix. -/
theorem prices_always_produced (spot r σ dt : ℝ) (Z : List (List ℝ)) :
    (prices spot r σ dt Z).length = Z.length := by
  simp [prices, ratio_matrix]

/-- C8: evaluation of scipy's `percentileofscore` exactly as the source calls
it, on the 2-D matrix [[1, 2], [3, 4]] with score 10: it returns 200, not the
percentile rank (100) of 10 in the flattened distribution {1, 2, 3, 4} —
the counts run over all 4 entries but the divisor is the 2 rows. -/
theorem percentileofscore_on_matrix : percentileofscore [[1, 2], [3, 4]] 10 = 200 := by
  unfold percentileofscore
  norm_num [List.flatten, List.countP_cons, List.countP_nil]

/-- C9: the binary evaluator's per-row payoff max(0, mean(row) − K) is nonzero
exactly when the row's path average exceeds the strike, and the binary price
is the fraction of such rows (one indicator per row) discounted by
exp(−r·T). -/
theorem binaryoption_fraction (K r T : ℝ) (mat : List (List ℝ)) :
    (∀ row ∈ mat, (max 0 (npMean row - K) ≠ 0 ↔ K < npMean row)) ∧
      binaryoption K r T mat =
        ((mat.map (fun row => if K < npMean row then (1 : ℝ) else 0)).sum) /
          mat.length * Real.exp (-(r * T)) := by
  have hiff : ∀ x : ℝ, (max 0 (x - K) ≠ 0 ↔ K < x) := by
    intro x
    rw [Ne, max_eq_left_iff, sub_nonpos, not_le]
  refine ⟨fun row _ => hiff (npMean row), ?_⟩
  unfold binaryoption
  rw [countP_ne_zero_cast_eq_sum, List.map_map]
  congr 2
  refine congrArg List.sum (List.map_congr_left fun row hrow => ?_)
  simp only [Function.comp_apply, hiff (npMean row)]

end Exotic
